import Mathlib

/-!
Verification development for the QuPyt-GUI pulse-sequence compiler
(`SequenceDesigner.py`).

The file shallowly embeds the two compilation paths of the source:

* the digital event compiler (`PulseBlasterSequence`): per block, every
  pulse contributes an `(start, channel, "up")` and a
  `(start+duration, channel, "down")` timeline event; events are sorted,
  consecutive time differences become segment durations, a trailing gap
  reconciles the declared total duration, a running signed bit-field is
  accumulated, a leading zero segment is inserted when the first event is
  not at time 0, and zero-duration segments are pruned;
* the analog waveform path (`PulseSequence`): per (variant, channel) row,
  `add_pulse` overwrites a quantized index range of the sample row, and
  `make` packs the six marker rows of a source into one byte per sample;
* the change-detection cache (`PulseSequenceYaml._sequence_didnt_change`).

Python floats are modelled as `ℚ`, Python ints as `ℤ`/`ℕ`, fallible
operations (IndexError, ValueError, numpy broadcast errors) as `Option`.
`float.cos` and the float constant `pi` appear only through the opaque
parameters `cosF` and `piQ` of the analog path; no property proved here
depends on their values.
-/

namespace SeqDesigner

/-- Ordering used by `_sort_pulses`: Python's `sorted` on
`(time, channel, event)` tuples compares lexicographically — time first,
then channel name (code-point order, here the `List Char` lexicographic
order on `String.data`), then the event tag string.  This is the total
preorder `≤` of that lexicographic order. -/
def tupLE (a b : ℚ × String × String) : Prop :=
  a.1 < b.1 ∨ (a.1 = b.1 ∧ (a.2.1.data < b.2.1.data ∨
    (a.2.1 = b.2.1 ∧ (a.2.2.data < b.2.2.data ∨ a.2.2 = b.2.2))))

instance instDecTupLE : DecidableRel tupLE := fun a b => by
  unfold tupLE; infer_instance

/-- Event emission of `_parse_block`/`_parse_channel`/`_append_event`: each
pulse `(start, duration)` of a channel appends the two events
`(start, channel, "up")` and `(start + duration, channel, "down")`, in
channel-then-pulse enumeration order. -/
def parseBlock (block : List (String × List (ℚ × ℚ))) : List (ℚ × String × String) :=
  block.flatMap (fun cp =>
    cp.2.flatMap (fun p => [(p.1, cp.1, ("up" : String)), (p.1 + p.2, cp.1, ("down" : String))]))

/-- Sorting of `_sort_pulses`: Python's `sorted` is the stable sort by the
lexicographic tuple order `tupLE` (stability only matters for fully equal
triples, where any stable sort agrees with Python's). -/
def sortPulses (evs : List (ℚ × String × String)) : List (ℚ × String × String) :=
  List.insertionSort tupLE evs

/-- Duration computation of `_get_event_durations`: consecutive time
differences, and — unless the total duration is the sentinel "ignore",
modelled as `none` — a trailing `total - last` gap appended when the last
event time differs from the declared total.  Reading `event_times[-1]` of an
empty list is an IndexError, modelled as `none`. -/
def getEventDurations (times : List ℚ) (total : Option ℚ) : Option (List ℚ) :=
  let durs := List.zipWith (fun i j => i - j) times.tail times
  match total with
  | none => some durs
  | some t =>
      times.getLast?.bind fun last =>
        some (if last = t then durs else durs ++ [t - last])

/-- Tag decoding of `_event_to_sign`: "up" ↦ +1, "down" ↦ −1, anything else
raises ValueError (modelled as `none`). -/
def eventToSign (ev : String) : Option ℤ :=
  if ev = "up" then some 1 else if ev = "down" then some (-1) else none

/-- Running bit-field accumulation of the loop in `_compute_channel_bits`:
each event adds `± 2 ^ channel_mapping[channel]` to the previous value
(`prev` starts at 0, matching the reset `channel_bits == []`). -/
def computeBitsAux (mapping : String → ℕ) (prev : ℤ) :
    List (String × String) → Option (List ℤ)
  | [] => some []
  | (ch, ev) :: rest =>
      (eventToSign ev).bind fun s =>
        (computeBitsAux mapping (prev + 2 ^ mapping ch * s) rest).bind fun tail =>
          some ((prev + 2 ^ mapping ch * s) :: tail)

/-- Bit-field list of `_compute_channel_bits` before the leading-zero insert:
the loop runs over the indices of `event_durations` and reads
`event_channel[i]`/`events[i]`; an out-of-range read would be an IndexError
(`none`). -/
def computeChannelBits (mapping : String → ℕ) (evs : List (ℚ × String × String))
    (durs : List ℚ) : Option (List ℤ) :=
  if durs.length ≤ evs.length then
    computeBitsAux mapping 0 ((evs.map (fun e => (e.2.1, e.2.2))).take durs.length)
  else none

/-- Index collection of `_pop_uncessary_entries`: the positions of all
zero-length segments, in ascending `enumerate` order. -/
def zeroIdxs (durs : List ℚ) : List ℕ :=
  (durs.enum.filter (fun p => decide (p.2 = 0))).map Prod.fst

/-- One pop iteration of `_pop_uncessary_entries`: pop index `i` from the
duration list if in bounds, else emit a warning (the `Bool` flag); then the
same, independently guarded, for the bit-field list. -/
def popStep (st : List ℚ × List ℤ × Bool) (i : ℕ) : List ℚ × List ℤ × Bool :=
  let st1 : List ℚ × List ℤ × Bool :=
    if i < st.1.length then (st.1.eraseIdx i, st.2.1, st.2.2) else (st.1, st.2.1, true)
  if i < st1.2.1.length then (st1.1, st1.2.1.eraseIdx i, st1.2.2)
  else (st1.1, st1.2.1, true)

/-- Pruning of `_pop_uncessary_entries`: the zero-duration indices are
processed in reverse (descending) order; the `Bool` component records
whether any bounds-guard warning fired. -/
def popEntries (durs : List ℚ) (bits : List ℤ) : List ℚ × List ℤ × Bool :=
  List.foldl popStep (durs, bits, false) (zeroIdxs durs).reverse

/-- Digital state of one block at the entry of `_pop_uncessary_entries`:
events parsed and sorted, durations computed, bit-fields accumulated, and
the leading zero segment inserted into both lists when the first event time
(`event_times[0]`, IndexError on empty ↦ `none`) is nonzero. -/
def prePrune (mapping : String → ℕ) (total : Option ℚ)
    (block : List (String × List (ℚ × ℚ))) : Option (List ℚ × List ℤ) :=
  let evs := sortPulses (parseBlock block)
  let times := evs.map Prod.fst
  (getEventDurations times total).bind fun durs =>
    (computeChannelBits mapping evs durs).bind fun bits =>
      times.head?.bind fun t0 =>
        if t0 ≠ 0 then some (t0 :: durs, (0 : ℤ) :: bits) else some (durs, bits)

/-- Per-block digital compilation as performed by
`parse_pulse_sequence_file` for one entry of `sequencing_order`: the pruned
`(channel_bits, durations)` pair stored in `self.ps[block]`. -/
def compileBlock (mapping : String → ℕ) (total : Option ℚ)
    (block : List (String × List (ℚ × ℚ))) : Option (List ℤ × List ℚ) :=
  (prePrune mapping total block).bind fun pre =>
    some ((popEntries pre.1 pre.2).2.1, (popEntries pre.1 pre.2).1)

/-- Python's `list * n`: `n` sequential copies of `l`. -/
def listMul (l : List α) (n : ℕ) : List α :=
  (List.replicate n l).flatten

/-- Program assembly of `PulseBlasterSequence.compile`: for each
`(block, repeats)` pair of `zip(sequencing_order, sequencing_repeats)`, the
block's native `channel_bits` and `durations` lists are appended
`repeats` times. -/
def compileProgram (order : List String) (repeats : List ℕ)
    (ps : String → List ℤ × List ℚ) : List ℤ × List ℚ :=
  List.foldl
    (fun acc br => (acc.1 ++ listMul (ps br.1).1 br.2, acc.2 ++ listMul (ps br.1).2 br.2))
    ([], []) (order.zip repeats)

/-- Block de-duplication of `translate_yaml_to_numeric_instructions`:
`sorted(set(sequencing_order))`. -/
def sorted_pulse_blocks (order : List String) : List String :=
  List.insertionSort (fun a b => a.data < b.data ∨ a = b) order.eraseDups

/-- Analog variant count: `PulseSequence` is constructed with
`numseqs = len(sorted_pulse_blocks)` variants — one per distinct block,
independent of `sequencing_repeats`. -/
def numseqs (order : List String) : ℕ :=
  (sorted_pulse_blocks order).length

/-- Time quantization of `PulseSequence.time_to_index`:
`int(round(samprate * time * 1e-6))` (float rounding noise aside). -/
def time_to_index (samprate t : ℚ) : ℤ :=
  round (samprate * t / 1000000)

/-- Numpy slice assignment `row[start:stop] = vals` for a row of samples:
the slice is clipped to the row bounds, and the assignment fails
(broadcast ValueError, `none`) unless `vals` has exactly the clipped
length.  Negative quantized indices (Python wrap-around slicing) are
outside the regime modelled here. -/
def npSliceAssign (row : List ℚ) (start stop : ℕ) (vals : List ℚ) : Option (List ℚ) :=
  let lo := min start row.length
  let hi := min stop row.length
  if vals.length = hi - lo then
    some ((List.range row.length).map
      (fun i => if lo ≤ i ∧ i < hi then vals.getD (i - lo) 0 else row.getD i 0))
  else none

/-- Numpy slice assignment `row[start:stop] = v` with a scalar right-hand
side: broadcasting never fails, the clipped range is overwritten. -/
def npSliceAssignConst (row : List ℚ) (start stop : ℕ) (v : ℚ) : List ℚ :=
  (List.range row.length).map
    (fun i => if min start row.length ≤ i ∧ i < min stop row.length then v else row.getD i 0)

/-- Row-level model of `PulseSequence.add_pulse` (the update of the single
`(variant, channel)` row selected by the numpy indexing): with a
`(frequency, phase)` pair the slice `time[start : start + duration]` is
filled with `amplitude * cos(2·pi·(frequency·1e-6)·t + phase)` — `cosF` and
`piQ` stand for float `cos` and `pi` — and without one the flat
`amplitude` is broadcast over the slice.  `start` and `dur` are the
quantized sample indices (non-negative regime). -/
def add_pulse (cosF : ℚ → ℚ) (piQ : ℚ) (timeAxis row : List ℚ) (start dur : ℕ)
    (amplitude : ℚ) (freq : Option (ℚ × ℚ)) : Option (List ℚ) :=
  match freq with
  | some fp =>
      let f6 := fp.1 / 1000000
      let fr := ((timeAxis.drop start).take dur).map
        (fun t => cosF (2 * piQ * f6 * t + fp.2))
      npSliceAssign row start (start + dur) (fr.map (fun c => amplitude * c))
  | none => some (npSliceAssignConst row start (start + dur) amplitude)

/-- Sample value a pulse writes at absolute index `i`: the flat amplitude,
or the modulated envelope evaluated on the block's time axis. -/
def pulseValue (cosF : ℚ → ℚ) (piQ : ℚ) (timeAxis : List ℚ) (amplitude : ℚ)
    (freq : Option (ℚ × ℚ)) (i : ℕ) : ℚ :=
  match freq with
  | some fp => amplitude * cosF (2 * piQ * (fp.1 / 1000000) * timeAxis.getD i 0 + fp.2)
  | none => amplitude

/-- Marker byte packing of `PulseSequence.make` at one sample: starting
from `packed = 0`, marker row `k` (k = 0..5, `vals.getD k`) contributes
`1 <<< (7 - k)` when its value is `> 0`, OR-accumulated. -/
def packByte (vals : List ℚ) : ℕ :=
  List.foldl
    (fun packed k => packed ||| ((if 0 < vals.getD k 0 then 1 else 0) <<< (7 - k)))
    0 (List.range 6)

/-- Per-source collapse of `PulseSequence.make`: the analog row (row 0 of
the source's seven rows) is copied through unchanged, and rows 1..6 are
packed sample-wise into one byte. -/
def collapseSource (numPoints : ℕ) (rows : List (List ℚ)) : List ℚ × List ℕ :=
  (rows.headD [],
   (List.range numPoints).map (fun t => packByte ((rows.drop 1).map (fun r => r.getD t 0))))

/-- Modelled from the spec: the tie-break policy the spec asserts for
`_sort_pulses` — a stable sort by event time only, so that events with
equal times keep the original channel-then-pulse enumeration order.  Kept
for comparison against `sortPulses`, the embedding of the source. -/
def sortPulsesSpec (evs : List (ℚ × String × String)) : List (ℚ × String × String) :=
  List.insertionSort (fun a b => a.1 ≤ b.1) evs

/-- Characterization helper for pruning: the `(duration, bit-field)` pairs
whose duration is nonzero, in order. -/
def keptPairs (durs : List ℚ) (bits : List ℤ) : List (ℚ × ℤ) :=
  (durs.zip bits).filter (fun p => decide (¬ p.1 = 0))

/-- Change cache `PulseSequenceYaml._sequence_didnt_change` on parsed
specification values: with no sidecar snapshot (`none`) it reports `false`
(changed) and writes the current spec as the new snapshot; with a snapshot
present it overwrites the sidecar with the current spec and reports
structural equality of snapshot and current spec. -/
def sequence_didnt_change [DecidableEq α] (current : α) (aux : Option α) : Bool × α :=
  match aux with
  | none => (false, current)
  | some prev => (decide (prev = current), current)

/-! ## Helper lemmas -/

lemma popStep_cons_succ (x : ℚ) (y : ℤ) (d : List ℚ) (b : List ℤ) (w : Bool) (i : ℕ) :
    popStep (x :: d, y :: b, w) (i + 1) =
      (x :: (popStep (d, b, w) i).1, y :: (popStep (d, b, w) i).2.1,
        (popStep (d, b, w) i).2.2) := by
  by_cases h1 : i < d.length <;> by_cases h2 : i < b.length <;>
    simp [popStep, h1, h2, Nat.succ_lt_succ_iff]

lemma foldl_popStep_shift (idxs : List ℕ) (x : ℚ) (y : ℤ) (d : List ℚ) (b : List ℤ) (w : Bool) :
    List.foldl popStep (x :: d, y :: b, w) (idxs.map (fun i => i + 1)) =
      (x :: (List.foldl popStep (d, b, w) idxs).1,
       y :: (List.foldl popStep (d, b, w) idxs).2.1,
       (List.foldl popStep (d, b, w) idxs).2.2) := by
  induction idxs generalizing d b w with
  | nil => rfl
  | cons i rest ih =>
      rcases h : popStep (d, b, w) i with ⟨d1, b1, w1⟩
      simp only [List.map_cons, List.foldl_cons, popStep_cons_succ, h, ih]

lemma enumFrom_zero_filter_shift (n : ℕ) (d : List ℚ) :
    ((List.enumFrom (n + 1) d).filter (fun p => decide (p.2 = 0))).map Prod.fst
      = (((List.enumFrom n d).filter (fun p => decide (p.2 = 0))).map Prod.fst).map
          (fun i => i + 1) := by
  induction d generalizing n with
  | nil => rfl
  | cons a d ih =>
      by_cases h : a = 0 <;> simp [List.enumFrom, h, ih]

lemma zeroIdxs_cons (x : ℚ) (d : List ℚ) :
    zeroIdxs (x :: d) =
      (if x = 0 then [0] else []) ++ (zeroIdxs d).map (fun i => i + 1) := by
  by_cases h : x = 0 <;>
    simp [zeroIdxs, List.enum, List.enumFrom, h, enumFrom_zero_filter_shift 0 d]

lemma popEntries_eq (d : List ℚ) (b : List ℤ) (h : d.length = b.length) :
    popEntries d b =
      ((keptPairs d b).map Prod.fst, (keptPairs d b).map Prod.snd, false) := by
  induction d generalizing b with
  | nil =>
      cases b with
      | nil => rfl
      | cons y b => simp at h
  | cons x d ih =>
      cases b with
      | nil => simp at h
      | cons y b =>
          have h' : d.length = b.length := by simpa using h
          rw [popEntries, zeroIdxs_cons, List.reverse_append, ← List.map_reverse,
            List.foldl_append, foldl_popStep_shift]
          have hpe : List.foldl popStep (d, b, false) (zeroIdxs d).reverse = popEntries d b := rfl
          rw [hpe, ih b h']
          by_cases hx : x = 0
          · simp [hx, popStep, keptPairs]
          · simp [hx, keptPairs]

lemma keptPairs_fst_sum (d : List ℚ) (b : List ℤ) (h : d.length = b.length) :
    ((keptPairs d b).map Prod.fst).sum = d.sum := by
  induction d generalizing b with
  | nil => simp [keptPairs]
  | cons x d ih =>
      cases b with
      | nil => simp at h
      | cons y b =>
          have h' : d.length = b.length := by simpa using h
          by_cases hx : x = 0 <;> simp [keptPairs, hx] <;>
            simpa [keptPairs, hx] using ih b h'

lemma keptPairs_fst_ne_zero (d : List ℚ) (b : List ℤ) (q : ℚ)
    (hq : q ∈ (keptPairs d b).map Prod.fst) : q ≠ 0 := by
  simp only [keptPairs, List.mem_map, List.mem_filter] at hq
  rcases hq with ⟨p, ⟨-, hp⟩, rfl⟩
  simpa using hp

lemma telescope_sum (x : ℚ) (l : List ℚ) :
    ∃ z, (x :: l).getLast? = some z ∧
      (List.zipWith (fun i j => i - j) l (x :: l)).sum = z - x := by
  induction l generalizing x with
  | nil => exact ⟨x, rfl, by simp⟩
  | cons y l ih =>
      rcases ih y with ⟨z, hz, hsum⟩
      refine ⟨z, ?_, ?_⟩
      · rw [List.getLast?_cons_cons]; exact hz
      · simp only [List.zipWith_cons_cons, List.sum_cons, hsum]; ring

lemma computeBitsAux_length (mapping : String → ℕ) (prev : ℤ)
    (pairs : List (String × String)) (bits : List ℤ)
    (h : computeBitsAux mapping prev pairs = some bits) : bits.length = pairs.length := by
  induction pairs generalizing prev bits with
  | nil => simp [computeBitsAux] at h; simp [← h]
  | cons p rest ih =>
      rcases p with ⟨ch, ev⟩
      simp only [computeBitsAux, Option.bind_eq_some', Option.some_inj] at h
      rcases h with ⟨s, hs, tail, htail, rfl⟩
      simp [ih _ _ htail]

lemma prePrune_parts (mapping : String → ℕ) (total : Option ℚ)
    (block : List (String × List (ℚ × ℚ))) (d : List ℚ) (b : List ℤ)
    (h : prePrune mapping total block = some (d, b)) :
    ∃ durs bits t0,
      getEventDurations ((sortPulses (parseBlock block)).map Prod.fst) total = some durs ∧
      computeChannelBits mapping (sortPulses (parseBlock block)) durs = some bits ∧
      ((sortPulses (parseBlock block)).map Prod.fst).head? = some t0 ∧
      ((t0 ≠ 0 ∧ d = t0 :: durs ∧ b = (0:ℤ) :: bits) ∨ (t0 = 0 ∧ d = durs ∧ b = bits)) := by
  simp only [prePrune, Option.bind_eq_some'] at h
  rcases h with ⟨durs, hdurs, bits, hbits, t0, ht0, hif⟩
  refine ⟨durs, bits, t0, hdurs, hbits, ht0, ?_⟩
  by_cases hz : t0 = 0
  · right
    simp [hz] at hif
    exact ⟨hz, hif.1.symm, hif.2.symm⟩
  · left
    simp [hz] at hif
    exact ⟨hz, hif.1.symm, hif.2.symm⟩

lemma computeChannelBits_length (mapping : String → ℕ)
    (evs : List (ℚ × String × String)) (durs : List ℚ) (bits : List ℤ)
    (h : computeChannelBits mapping evs durs = some bits) : bits.length = durs.length := by
  simp only [computeChannelBits] at h
  split at h
  · have hl := computeBitsAux_length _ _ _ _ h
    rename_i hle
    simpa [List.length_take, Nat.min_eq_left, hle] using hl
  · exact absurd h (by simp)

lemma prePrune_length (mapping : String → ℕ) (total : Option ℚ)
    (block : List (String × List (ℚ × ℚ))) (d : List ℚ) (b : List ℤ)
    (h : prePrune mapping total block = some (d, b)) : d.length = b.length := by
  rcases prePrune_parts mapping total block d b h with
    ⟨durs, bits, t0, hdurs, hbits, ht0, hcase⟩
  have hlen : bits.length = durs.length := computeChannelBits_length _ _ _ _ hbits
  rcases hcase with ⟨-, rfl, rfl⟩ | ⟨-, rfl, rfl⟩ <;> simp [hlen]

lemma prePrune_sum (mapping : String → ℕ) (T : ℚ)
    (block : List (String × List (ℚ × ℚ))) (d : List ℚ) (b : List ℤ)
    (h : prePrune mapping (some T) block = some (d, b)) : d.sum = T := by
  rcases prePrune_parts mapping (some T) block d b h with
    ⟨durs, bits, t0, hdurs, hbits, ht0, hcase⟩
  cases htc : (sortPulses (parseBlock block)).map Prod.fst with
  | nil => rw [htc] at ht0; simp at ht0
  | cons a rest =>
      rw [htc] at ht0 hdurs
      have ha : t0 = a := by simpa using ht0.symm
      subst ha
      simp only [getEventDurations, Option.bind_eq_some', Option.some_inj] at hdurs
      rcases hdurs with ⟨last, hlast, hdurs⟩
      rcases telescope_sum t0 rest with ⟨z, hz, hsum⟩
      have hzl : z = last := by rw [hz] at hlast; exact Option.some.inj hlast
      subst hzl
      have hdsum : durs.sum = T - t0 := by
        by_cases hlt : z = T
        · rw [← hdurs, if_pos hlt]
          simpa [List.tail_cons, hlt] using hsum
        · rw [← hdurs, if_neg hlt]
          simp only [List.sum_append, List.sum_cons, List.sum_nil, List.tail_cons]
          rw [hsum]
          ring
      rcases hcase with ⟨-, rfl, -⟩ | ⟨hz0, rfl, -⟩
      · rw [List.sum_cons, hdsum]
        ring
      · rw [hdsum, hz0]
        ring

lemma compileBlock_parts (mapping : String → ℕ) (total : Option ℚ)
    (block : List (String × List (ℚ × ℚ))) (bits : List ℤ) (durs : List ℚ)
    (h : compileBlock mapping total block = some (bits, durs)) :
    ∃ pd pb, prePrune mapping total block = some (pd, pb) ∧
      bits = (popEntries pd pb).2.1 ∧ durs = (popEntries pd pb).1 := by
  simp only [compileBlock, Option.bind_eq_some', Option.some_inj] at h
  rcases h with ⟨⟨pd, pb⟩, hpre, hbd⟩
  have h1 : (popEntries pd pb).2.1 = bits := congrArg Prod.fst hbd
  have h2 : (popEntries pd pb).1 = durs := by
    have := congrArg Prod.snd hbd
    simpa using this
  exact ⟨pd, pb, hpre, h1.symm, h2.symm⟩

lemma string_data_eq {s t : String} (h : s.data = t.data) : s = t := by
  cases s
  cases t
  exact congrArg String.mk h

instance : IsTrans (ℚ × String × String) tupLE :=
  ⟨by
    rintro a b c (h1 | ⟨e1, h1⟩) (h2 | ⟨e2, h2⟩)
    · exact Or.inl (lt_trans h1 h2)
    · exact Or.inl (by rw [← e2]; exact h1)
    · exact Or.inl (by rw [e1]; exact h2)
    · refine Or.inr ⟨e1.trans e2, ?_⟩
      rcases h1 with h1 | ⟨f1, h1⟩ <;> rcases h2 with h2 | ⟨f2, h2⟩
      · exact Or.inl (lt_trans h1 h2)
      · exact Or.inl (by rw [← f2]; exact h1)
      · exact Or.inl (by rw [f1]; exact h2)
      · refine Or.inr ⟨f1.trans f2, ?_⟩
        rcases h1 with h1 | h1 <;> rcases h2 with h2 | h2
        · exact Or.inl (lt_trans h1 h2)
        · exact Or.inl (by rw [← h2]; exact h1)
        · exact Or.inl (by rw [h1]; exact h2)
        · exact Or.inr (h1.trans h2)⟩

instance : IsTotal (ℚ × String × String) tupLE :=
  ⟨by
    intro a b
    rcases lt_trichotomy a.1 b.1 with h | h | h
    · exact Or.inl (Or.inl h)
    · rcases lt_trichotomy a.2.1.data b.2.1.data with g | g | g
      · exact Or.inl (Or.inr ⟨h, Or.inl g⟩)
      · have hs : a.2.1 = b.2.1 := string_data_eq g
        rcases lt_trichotomy a.2.2.data b.2.2.data with k | k | k
        · exact Or.inl (Or.inr ⟨h, Or.inr ⟨hs, Or.inl k⟩⟩)
        · exact Or.inl (Or.inr ⟨h, Or.inr ⟨hs, Or.inr (string_data_eq k)⟩⟩)
        · exact Or.inr (Or.inr ⟨h.symm, Or.inr ⟨hs.symm, Or.inl k⟩⟩)
      · exact Or.inr (Or.inr ⟨h.symm, Or.inl g⟩)
    · exact Or.inr (Or.inl h)⟩

lemma listMul_length {α : Type} (l : List α) (n : ℕ) : (listMul l n).length = n * l.length := by
  induction n with
  | zero => simp [listMul]
  | succ m ih =>
      simp only [listMul, List.replicate_succ, List.flatten_cons, List.length_append] at ih ⊢
      rw [ih]
      ring

lemma compileProgram_foldl (ps : String → List ℤ × List ℚ) (pairs : List (String × ℕ))
    (A : List ℤ) (B : List ℚ) :
    List.foldl
        (fun acc br => (acc.1 ++ listMul (ps br.1).1 br.2, acc.2 ++ listMul (ps br.1).2 br.2))
        (A, B) pairs
      = (A ++ (pairs.map (fun br => listMul (ps br.1).1 br.2)).flatten,
         B ++ (pairs.map (fun br => listMul (ps br.1).2 br.2)).flatten) := by
  induction pairs generalizing A B with
  | nil => simp
  | cons p rest ih => simp [ih, List.append_assoc]

lemma compileProgram_eq (order : List String) (repeats : List ℕ)
    (ps : String → List ℤ × List ℚ) :
    compileProgram order repeats ps =
      (((order.zip repeats).map (fun br => listMul (ps br.1).1 br.2)).flatten,
       ((order.zip repeats).map (fun br => listMul (ps br.1).2 br.2)).flatten) := by
  simpa [compileProgram] using compileProgram_foldl ps (order.zip repeats) [] []

lemma testBit_condBit (c : Prop) [inst : Decidable c] (m n : ℕ) :
    (((if c then 1 else 0) : ℕ) <<< m).testBit n = (decide c && decide (m = n)) := by
  by_cases h : c
  · rw [if_pos h, Nat.shiftLeft_eq, one_mul]
    by_cases hm : m = n
    · subst hm
      simp [Nat.testBit_two_pow_self, h]
    · simp [Nat.testBit_two_pow_of_ne hm, h, hm]
  · simp [h]

lemma range_six : List.range 6 = [0, 1, 2, 3, 4, 5] := by decide

lemma condOne_testBit_ne_zero (c : Prop) [inst : Decidable c] (j : ℕ) (hj : j ≠ 0) :
    ((if c then 1 else 0 : ℕ)).testBit j = false := by
  by_cases h : c
  · rw [if_pos h]
    have h1 : (1 : ℕ) = 2 ^ 0 := rfl
    rw [h1, Nat.testBit_two_pow_of_ne (Ne.symm hj)]
  · simp [h]

lemma condOne_mod_two (c : Prop) [inst : Decidable c] :
    ((if c then 1 else 0 : ℕ) % 2 = 1) ↔ c := by
  by_cases h : c <;> simp [h]

lemma getD_range_map (n i : ℕ) (g : ℕ → ℚ) (h : i < n) :
    ((List.range n).map g).getD i 0 = g i := by
  have hlen : i < ((List.range n).map g).length := by simpa using h
  rw [List.getD_eq_getElem _ _ hlen]
  simp

lemma add_pulse_length (cosF : ℚ → ℚ) (piQ : ℚ) (timeAxis row r : List ℚ)
    (start dur : ℕ) (a : ℚ) (freq : Option (ℚ × ℚ))
    (h : add_pulse cosF piQ timeAxis row start dur a freq = some r) :
    r.length = row.length := by
  cases freq with
  | none =>
      simp only [add_pulse, Option.some_inj] at h
      rw [← h]
      simp [npSliceAssignConst]
  | some fp =>
      simp only [add_pulse, npSliceAssign] at h
      split at h
      · rw [← Option.some_inj.mp h]
        simp
      · exact absurd h (by simp)

lemma add_pulse_getD_in_range (cosF : ℚ → ℚ) (piQ : ℚ) (timeAxis row r : List ℚ)
    (start dur : ℕ) (a : ℚ) (freq : Option (ℚ × ℚ))
    (h : add_pulse cosF piQ timeAxis row start dur a freq = some r)
    (i : ℕ) (h1 : start ≤ i) (h2 : i < start + dur) (h3 : i < row.length) :
    r.getD i 0 = pulseValue cosF piQ timeAxis a freq i := by
  have hlo : min start row.length = start := Nat.min_eq_left (le_of_lt (lt_of_le_of_lt h1 h3))
  cases freq with
  | none =>
      simp only [add_pulse, Option.some_inj] at h
      rw [← h, npSliceAssignConst, getD_range_map _ _ _ h3, hlo,
        if_pos ⟨h1, lt_min h2 h3⟩]
      rfl
  | some fp =>
      simp only [add_pulse, npSliceAssign] at h
      split at h
      case isFalse => exact absurd h (by simp)
      case isTrue hveq =>
        rw [← Option.some_inj.mp h, getD_range_map _ _ _ h3]
        rw [hlo] at hveq ⊢
        rw [if_pos ⟨h1, lt_min h2 h3⟩]
        have hfr : i - start <
            ((((timeAxis.drop start).take dur).map
              (fun t => cosF (2 * piQ * (fp.1 / 1000000) * t + fp.2))).map
                (fun c => a * c)).length := by
          rw [hveq]
          omega
        have htime : i < timeAxis.length := by
          simp only [List.length_map, List.length_take, List.length_drop] at hfr
          omega
        have hdrop : i - start < (timeAxis.drop start).length := by
          simp only [List.length_drop]
          omega
        have htake : i - start < ((timeAxis.drop start).take dur).length := by
          simp only [List.length_take, List.length_drop]
          omega
        rw [List.getD_eq_getElem _ _ hfr]
        simp only [List.getElem_map, List.getElem_take, List.getElem_drop]
        have hidx : start + (i - start) = i := by omega
        rw [pulseValue, List.getD_eq_getElem _ _ htime]
        simp [hidx]

lemma add_pulse_getD_untouched (cosF : ℚ → ℚ) (piQ : ℚ) (timeAxis row r : List ℚ)
    (start dur : ℕ) (a : ℚ) (freq : Option (ℚ × ℚ))
    (h : add_pulse cosF piQ timeAxis row start dur a freq = some r)
    (i : ℕ) (h1 : i < start) (h3 : i < row.length) :
    r.getD i 0 = row.getD i 0 := by
  have hcond : ¬ (min start row.length ≤ i ∧ i < min (start + dur) row.length) := by
    omega
  cases freq with
  | none =>
      simp only [add_pulse, Option.some_inj] at h
      rw [← h, npSliceAssignConst, getD_range_map _ _ _ h3, if_neg hcond]
  | some fp =>
      simp only [add_pulse, npSliceAssign] at h
      split at h
      · rw [← Option.some_inj.mp h, getD_range_map _ _ _ h3, if_neg hcond]
      · exact absurd h (by simp)

lemma range_four : List.range 4 = [0, 1, 2, 3] := by decide

lemma range_three : List.range 3 = [0, 1, 2] := by decide

/-! ## Claim theorems -/

/-- C1: for a block with a single channel holding one pulse with start 2 and
duration 3, compiled with total duration 10, the digital event compiler
produces the bit-field/duration pairs `[(0,2), (2^k,3), (0,5)]`, where `k`
is the channel's mapped index: a leading zero segment of length 2, the
pulse segment of length 3, and a synthesized trailing zero segment of
length 5. -/
theorem digital_single_pulse_events (k : ℕ) :
    compileBlock (fun _ => k) (some 10) [(("ch" : String), [(2, 3)])] =
      some ([0, 2 ^ k, 0], [2, 3, 5]) := by
  have hdu : ¬ (("down" : String) = "up") := by decide
  norm_num [compileBlock, prePrune, sortPulses, parseBlock, List.insertionSort,
    List.orderedInsert, tupLE, getEventDurations, computeChannelBits, computeBitsAux,
    eventToSign, popEntries, zeroIdxs, popStep, List.filter, List.enum,
    List.enumFrom, hdu]

/-- C2 (amended): the compiled digital event list is the concatenation, in
program order, of each block's native `(channel_bits, durations)` lists
repeated `repeats` times, and both total lengths (bit-field count and
event/duration count) equal the sum over the program of
`repeats * native_length`.  The analog tensor, however, is not
repeat-expanded: its variant count `numseqs` is the number of distinct
blocks of the program (one variant per distinct block; repeats are stored
as metadata only). -/
theorem repeat_expansion_sequential (order : List String) (repeats : List ℕ)
    (ps : String → List ℤ × List ℚ) :
    compileProgram order repeats ps =
      (((order.zip repeats).map (fun br => listMul (ps br.1).1 br.2)).flatten,
       ((order.zip repeats).map (fun br => listMul (ps br.1).2 br.2)).flatten) ∧
    (compileProgram order repeats ps).1.length =
      ((order.zip repeats).map (fun br => br.2 * (ps br.1).1.length)).sum ∧
    (compileProgram order repeats ps).2.length =
      ((order.zip repeats).map (fun br => br.2 * (ps br.1).2.length)).sum ∧
    numseqs order = order.eraseDups.length := by
  refine ⟨compileProgram_eq order repeats ps, ?_, ?_, ?_⟩
  · rw [compileProgram_eq order repeats ps]
    simp [List.length_flatten, List.map_map, Function.comp_def, listMul_length]
  · rw [compileProgram_eq order repeats ps]
    simp [List.length_flatten, List.map_map, Function.comp_def, listMul_length]
  · simp [numseqs, sorted_pulse_blocks, List.length_insertionSort]

/-- C2 counterexample: for the program with `sequencing_order = ["A"]` and
`sequencing_repeats = [2]` the analog tensor has `numseqs ["A"] = 1`
variant, while the claimed sum `Σ repeats * native_length` over the
program (native analog variant length 1 per block) is 2. -/
theorem analog_variant_count_counterexample :
    numseqs [("A" : String)] = 1 ∧
    (([(("A" : String), 2)] : List (String × ℕ)).map (fun br => br.2 * 1)).sum = 2 ∧
    (1 : ℕ) ≠ 2 := by
  refine ⟨?_, by norm_num, by norm_num⟩
  decide

/-- C3 (amended): `_sort_pulses` orders a block's merged timeline by the
full lexicographic `(time, channel, event)` tuple order `tupLE`: the output
is a permutation of the input sorted under `tupLE`, so events with equal
times are ordered by channel name (code-point order) and then by event tag
("down" before "up"), not by the original enumeration order. -/
theorem sort_ties_lexicographic (l : List (ℚ × String × String)) :
    (sortPulses l).Sorted tupLE ∧ (sortPulses l).Perm l :=
  ⟨List.sorted_insertionSort tupLE l, List.perm_insertionSort tupLE l⟩

/-- C3 counterexample: for two channels "b" (enumerated first) and "a" with
simultaneous pulses, the source's sort puts channel "a" first at each tied
time, while the enumeration-order-preserving stable sort the claim
describes (`sortPulsesSpec`) keeps "b" first; the outputs differ. -/
theorem sort_tiebreak_counterexample :
    sortPulses
        [(1, ("b" : String), ("up" : String)), (3, ("b" : String), ("down" : String)),
         (1, ("a" : String), ("up" : String)), (3, ("a" : String), ("down" : String))] =
      [(1, ("a" : String), ("up" : String)), (1, ("b" : String), ("up" : String)),
       (3, ("a" : String), ("down" : String)), (3, ("b" : String), ("down" : String))] ∧
    sortPulsesSpec
        [(1, ("b" : String), ("up" : String)), (3, ("b" : String), ("down" : String)),
         (1, ("a" : String), ("up" : String)), (3, ("a" : String), ("down" : String))] =
      [(1, ("b" : String), ("up" : String)), (1, ("a" : String), ("up" : String)),
       (3, ("b" : String), ("down" : String)), (3, ("a" : String), ("down" : String))] ∧
    ([(1, ("a" : String), ("up" : String)), (1, ("b" : String), ("up" : String)),
      (3, ("a" : String), ("down" : String)), (3, ("b" : String), ("down" : String))]
        : List (ℚ × String × String)) ≠
      [(1, ("b" : String), ("up" : String)), (1, ("a" : String), ("up" : String)),
       (3, ("b" : String), ("down" : String)), (3, ("a" : String), ("down" : String))] := by
  have h1 : ¬ (("b" : String).data < ("a" : String).data) := by decide
  have h2 : ¬ (("b" : String) = ("a" : String)) := by decide
  refine ⟨?_, ?_, ?_⟩
  · norm_num [sortPulses, List.insertionSort, List.orderedInsert, tupLE, h1, h2]
  · norm_num [sortPulsesSpec, List.insertionSort, List.orderedInsert]
  · decide

/-- C4 (amended): `make` copies each source's analog row through unchanged,
and packs the six marker rows into one byte per sample with marker row `k`
(k = 0..5) contributing bit `7 - k` exactly when its value is positive,
OR-accumulated; under this mapping the marker values `{0,1,0,1,0,1}`
across bit offsets 0..5 pack to byte `0b01010100` (bits 6, 4, 2 set). -/
theorem marker_packing_bit_mapping :
    (∀ (numPoints : ℕ) (rows : List (List ℚ)),
      (collapseSource numPoints rows).1 = rows.headD []) ∧
    (∀ (vals : List ℚ) (k : ℕ), k < 6 →
      (packByte vals).testBit (7 - k) = decide (0 < vals.getD k 0)) ∧
    packByte [0, 1, 0, 1, 0, 1] = 0b01010100 := by
  refine ⟨fun numPoints rows => rfl, ?_, by decide⟩
  intro vals k hk
  interval_cases k <;>
    simp [packByte, range_six, List.foldl_cons, List.foldl_nil, Nat.testBit_or,
      testBit_condBit, condOne_testBit_ne_zero, condOne_mod_two]

/-- C4 witness: instantiating the bit-mapping clause at the example row,
marker row 1 (value 1) sets bit `7 - 1 = 6`. -/
theorem marker_packing_bit_mapping_witness :
    (1 : ℕ) < 6 ∧
    (packByte [0, 1, 0, 1, 0, 1]).testBit (7 - 1) = decide ((0 : ℚ) < 1) :=
  ⟨by norm_num, marker_packing_bit_mapping.2.1 [0, 1, 0, 1, 0, 1] 1 (by norm_num)⟩

/-- C4 counterexample: the marker values `{0,1,0,1,0,1}` across bit offsets
0..5 pack to 84 = `0b01010100`, not to `0b10101000` (= 168, bits 7, 5, 3)
as the claim's example states. -/
theorem marker_packing_example_counterexample :
    packByte [0, 1, 0, 1, 0, 1] = 84 ∧ (84 : ℕ) ≠ 0b10101000 := by
  exact ⟨by decide, by decide⟩

/-- C5: analog pulse writes overwrite: when two pulses are written in order
to the same channel row and their quantized index ranges overlap, every
sample of the overlap (inside the row) holds the later pulse's value —
its flat amplitude, or its modulated envelope — never a sum. -/
theorem analog_overwrite_last_wins (cosF : ℚ → ℚ) (piQ : ℚ)
    (timeAxis row row1 row2 : List ℚ) (s1 d1 s2 d2 : ℕ) (a1 a2 : ℚ)
    (f1 f2 : Option (ℚ × ℚ))
    (h1 : add_pulse cosF piQ timeAxis row s1 d1 a1 f1 = some row1)
    (h2 : add_pulse cosF piQ timeAxis row1 s2 d2 a2 f2 = some row2)
    (i : ℕ) (hs1 : s1 ≤ i) (he1 : i < s1 + d1)
    (hs : s2 ≤ i) (he : i < s2 + d2) (hi : i < row.length) :
    row2.getD i 0 = pulseValue cosF piQ timeAxis a2 f2 i := by
  have hl1 := add_pulse_length cosF piQ timeAxis row row1 s1 d1 a1 f1 h1
  exact add_pulse_getD_in_range cosF piQ timeAxis row1 row2 s2 d2 a2 f2 h2 i hs he
    (by rw [hl1]; exact hi)

/-- C5 witness: on a 4-sample row, pulse 1 (start 0, length 3, amplitude 1)
then pulse 2 (start 1, length 2, amplitude 2) overlap at index 2, which
holds the later pulse's value 2. -/
theorem analog_overwrite_witness :
    add_pulse (fun t => t) 0 [0, 1, 2, 3] [(0 : ℚ), 0, 0, 0] 0 3 1 none = some [1, 1, 1, 0] ∧
    add_pulse (fun t => t) 0 [0, 1, 2, 3] [(1 : ℚ), 1, 1, 0] 1 2 2 none = some [1, 2, 2, 0] ∧
    ([1, 2, 2, 0] : List ℚ).getD 2 0 = pulseValue (fun t => t) 0 [0, 1, 2, 3] 2 none 2 := by
  have ha : add_pulse (fun t : ℚ => t) 0 [0, 1, 2, 3] [(0 : ℚ), 0, 0, 0] 0 3 1 none =
      some [1, 1, 1, 0] := by
    norm_num [add_pulse, npSliceAssignConst, range_four, List.getD_cons_zero,
      List.getD_cons_succ, Nat.min_def]
  have hb : add_pulse (fun t : ℚ => t) 0 [0, 1, 2, 3] [(1 : ℚ), 1, 1, 0] 1 2 2 none =
      some [1, 2, 2, 0] := by
    norm_num [add_pulse, npSliceAssignConst, range_four, List.getD_cons_zero,
      List.getD_cons_succ, Nat.min_def]
  exact ⟨ha, hb, analog_overwrite_last_wins (fun t => t) 0 [0, 1, 2, 3]
    [(0 : ℚ), 0, 0, 0] [1, 1, 1, 0] [1, 2, 2, 0] 0 3 1 2 1 2 none none ha hb 2
    (by norm_num) (by norm_num) (by norm_num) (by norm_num) (by norm_num)⟩

/-- C6 (amended): whenever a block reaches zero-duration pruning, the
duration and bit-field sequences have equal length, pruning keeps them in
lockstep (equal lengths, no zero duration left), and no bounds-guard
warning fires; but a hypothetical index mismatch is not a fatal assertion
— the out-of-range pop is skipped with a warning and pruning returns
normally (see the counterexample). -/
theorem pruning_lockstep_equal_lengths (mapping : String → ℕ) (total : Option ℚ)
    (block : List (String × List (ℚ × ℚ))) (d : List ℚ) (b : List ℤ)
    (h : prePrune mapping total block = some (d, b)) :
    d.length = b.length ∧
    (popEntries d b).2.2 = false ∧
    (popEntries d b).1.length = (popEntries d b).2.1.length ∧
    ∀ q ∈ (popEntries d b).1, q ≠ 0 := by
  have hl := prePrune_length mapping total block d b h
  rw [popEntries_eq d b hl]
  refine ⟨hl, rfl, by simp, ?_⟩
  intro q hq
  exact keptPairs_fst_ne_zero d b q hq

/-- C6 witness: the single-pulse block of C1 reaches pruning with the
equal-length pair `([2,3,5], [0,1,0])`. -/
theorem pruning_lockstep_witness :
    ([2, 3, 5] : List ℚ).length = ([0, 1, 0] : List ℤ).length ∧
    (popEntries [2, 3, 5] [0, 1, 0]).2.2 = false ∧
    (popEntries [2, 3, 5] [0, 1, 0]).1.length = (popEntries [2, 3, 5] [0, 1, 0]).2.1.length ∧
    ∀ q ∈ (popEntries [2, 3, 5] [0, 1, 0]).1, q ≠ 0 := by
  have hdu : ¬ (("down" : String) = "up") := by decide
  have hp : prePrune (fun _ => 0) (some 10) [(("a" : String), [(2, 3)])] =
      some ([2, 3, 5], [0, 1, 0]) := by
    norm_num [prePrune, sortPulses, parseBlock, List.insertionSort,
      List.orderedInsert, tupLE, getEventDurations, computeChannelBits, computeBitsAux,
      eventToSign, hdu]
  exact pruning_lockstep_equal_lengths (fun _ => 0) (some 10)
    [(("a" : String), [(2, 3)])] [2, 3, 5] [0, 1, 0] hp

/-- C6 counterexample: called directly with mismatched sequences (durations
`[0]`, bit-fields `[]`), pruning does not abort: the duration is popped,
the out-of-range bit-field pop is skipped, the warning flag is set, and
the function returns normally. -/
theorem pruning_mismatch_recovers : popEntries [(0 : ℚ)] ([] : List ℤ) = ([], [], true) := by
  decide

/-- C7: for every block compiled with a numeric (non-"ignore") total
duration, the sum of the block's final digital durations — after
trailing-gap synthesis, leading-zero insertion and zero-duration pruning —
equals the declared total duration. -/
theorem block_durations_sum_total (mapping : String → ℕ) (T : ℚ)
    (block : List (String × List (ℚ × ℚ))) (bits : List ℤ) (durs : List ℚ)
    (h : compileBlock mapping (some T) block = some (bits, durs)) : durs.sum = T := by
  rcases compileBlock_parts mapping (some T) block bits durs h with ⟨pd, pb, hpre, -, rfl⟩
  have hlen := prePrune_length mapping (some T) block pd pb hpre
  rw [popEntries_eq pd pb hlen]
  rw [keptPairs_fst_sum pd pb hlen]
  exact prePrune_sum mapping T block pd pb hpre

/-- C7 witness: the single-pulse block compiled with total duration 10
yields durations `[2, 3, 5]`, which sum to 10. -/
theorem block_durations_sum_total_witness :
    compileBlock (fun _ => 0) (some 10) [(("a" : String), [(2, 3)])] =
      some ([0, 1, 0], [2, 3, 5]) ∧ ([2, 3, 5] : List ℚ).sum = 10 := by
  have hdu : ¬ (("down" : String) = "up") := by decide
  have hc : compileBlock (fun _ => 0) (some 10) [(("a" : String), [(2, 3)])] =
      some ([0, 1, 0], [2, 3, 5]) := by
    norm_num [compileBlock, prePrune, sortPulses, parseBlock, List.insertionSort,
      List.orderedInsert, tupLE, getEventDurations, computeChannelBits, computeBitsAux,
      eventToSign, popEntries, zeroIdxs, popStep, List.filter, List.enum,
      List.enumFrom, hdu]
  exact ⟨hc, block_durations_sum_total (fun _ => 0) 10 [(("a" : String), [(2, 3)])]
    [0, 1, 0] [2, 3, 5] hc⟩

/-- C8: with no sidecar snapshot present, the change cache reports `false`
(changed) and writes the current spec as the snapshot; calling it again
with the same spec and that snapshot reports `true`. -/
theorem change_cache_false_then_true {α : Type} [inst : DecidableEq α] (spec : α) :
    (sequence_didnt_change spec none).1 = false ∧
    (sequence_didnt_change spec (some (sequence_didnt_change spec none).2)).1 = true :=
  ⟨rfl, by simp [sequence_didnt_change]⟩

/-- C8 witness: the two calls at a concrete specification value. -/
theorem change_cache_false_then_true_witness :
    (sequence_didnt_change (3 : ℕ) none).1 = false ∧
    (sequence_didnt_change (3 : ℕ) (some (sequence_didnt_change (3 : ℕ) none).2)).1 = true :=
  change_cache_false_then_true 3

/-- C9: when the quantized end index `start + dur` exceeds the row length
`n` (with non-negative `start`), `add_pulse` returns successfully — no
bounds error — the row keeps its length `n`, indices from `start` up to
`n` receive the pulse value, samples below `start` are untouched, and the
samples aimed at indices `≥ n` are silently dropped. -/
theorem add_pulse_silent_clip (cosF : ℚ → ℚ) (piQ : ℚ) (timeAxis row : List ℚ)
    (n start dur : ℕ) (a : ℚ) (freq : Option (ℚ × ℚ))
    (ht : timeAxis.length = n) (hr : row.length = n) (hov : n < start + dur) :
    ∃ r, add_pulse cosF piQ timeAxis row start dur a freq = some r ∧
      r.length = n ∧
      ∀ i, i < n → r.getD i 0 =
        (if start ≤ i then pulseValue cosF piQ timeAxis a freq i
         else row.getD i 0) := by
  have hsome : ∃ r, add_pulse cosF piQ timeAxis row start dur a freq = some r := by
    cases freq with
    | none => exact ⟨_, rfl⟩
    | some fp =>
        have hlen : ((((timeAxis.drop start).take dur).map
            (fun t => cosF (2 * piQ * (fp.1 / 1000000) * t + fp.2))).map
              (fun c => a * c)).length =
            min (start + dur) row.length - min start row.length := by
          simp only [List.length_map, List.length_take, List.length_drop, ht, hr]
          omega
        exact ⟨_, by rw [add_pulse, npSliceAssign, if_pos hlen]⟩
  rcases hsome with ⟨r, hrr⟩
  refine ⟨r, hrr, ?_, ?_⟩
  · rw [add_pulse_length cosF piQ timeAxis row r start dur a freq hrr, hr]
  · intro i hin
    by_cases hsi : start ≤ i
    · rw [if_pos hsi]
      exact add_pulse_getD_in_range cosF piQ timeAxis row r start dur a freq hrr i hsi
        (lt_trans hin hov) (by rw [hr]; exact hin)
    · rw [if_neg hsi]
      exact add_pulse_getD_untouched cosF piQ timeAxis row r start dur a freq hrr i
        (not_le.mp hsi) (by rw [hr]; exact hin)

/-- C9 witness: a pulse with start 1 and duration 5 on a 3-sample row (end
index 6 > 3) succeeds and writes only indices 1 and 2. -/
theorem add_pulse_silent_clip_witness :
    ∃ r, add_pulse (fun t => t) 0 [0, 1, 2] [(5 : ℚ), 5, 5] 1 5 7 none = some r ∧
      r.length = 3 ∧
      ∀ i, i < 3 → r.getD i 0 =
        (if 1 ≤ i then pulseValue (fun t => t) 0 [0, 1, 2] 7 none i
         else ([(5 : ℚ), 5, 5]).getD i 0) :=
  add_pulse_silent_clip (fun t => t) 0 [0, 1, 2] [(5 : ℚ), 5, 5] 3 1 5 7 none
    (by norm_num) (by norm_num) (by norm_num)

/-- C10: with numeric total duration 4 and a block whose last event time is
5, the synthesized trailing segment has negative duration -1, and it
survives pruning into the block's final output, since pruning removes only
segments whose duration is exactly zero. -/
theorem negative_trailing_duration_survives :
    compileBlock (fun _ => 1) (some 4) [(("ch" : String), [(2, 3)])] =
      some ([0, 2, 0], [2, 3, -1]) ∧ ((-1 : ℚ) < 0) := by
  have hdu : ¬ (("down" : String) = "up") := by decide
  constructor
  · norm_num [compileBlock, prePrune, sortPulses, parseBlock, List.insertionSort,
      List.orderedInsert, tupLE, getEventDurations, computeChannelBits, computeBitsAux,
      eventToSign, popEntries, zeroIdxs, popStep, List.filter, List.enum,
      List.enumFrom, hdu]
  · norm_num

end SeqDesigner
